import Mathlib

/-!
Verification development for the feather HTTP dispatcher (Go).

Go strings are modelled as `List Char`.  The external `regexp` standard
library (an external collaborator of the repository) is modelled by a small
regular-expression engine covering exactly the constructs that the route
compiler in `feather.go` emits (literal characters, escaped metacharacters,
character classes, capturing groups and `+`); any other construct makes the
modelled compiler reject the expression, mirroring the fact that the
repository never relies on them.  Everything in `feather.go` and
`context.go` that the claims touch is translated directly from the source.
-/

namespace Feather

/-- Association-list lookup: first binding wins (Go map read). -/
def assocGet [DecidableEq α] : List (α × β) → α → Option β
  | [], _ => none
  | (k', v') :: rest, k => if k' = k then some v' else assocGet rest k

/-- Association-list update: replace the existing binding or append (Go map write). -/
def assocSet [DecidableEq α] : List (α × β) → α → β → List (α × β)
  | [], k, v => [(k, v)]
  | (k', v') :: rest, k, v =>
    if k' = k then (k, v) :: rest else (k', v') :: assocSet rest k v

/-- Model of Go `strings.Split`/`strings.SplitSeq` for a one-character separator. -/
def goSplit (sep : Char) : List Char → List (List Char)
  | [] => [[]]
  | c :: rest =>
    if c = sep then [] :: goSplit sep rest
    else
      match goSplit sep rest with
      | [] => [[c]]
      | g :: gs => (c :: g) :: gs

/-- The characters Go `regexp.QuoteMeta` escapes (the `specialBytes` set). -/
def goSpecialChars : List Char :=
  ['\\', '.', '+', '*', '?', '(', ')', '|', '[', ']', '{', '}', '^', '$']

/-- One character of `regexp.QuoteMeta` output. -/
def quoteMetaChar (c : Char) : List Char :=
  if c ∈ goSpecialChars then ['\\', c] else [c]

/-- Model of Go `regexp.QuoteMeta`. -/
def quoteMeta (s : List Char) : List Char :=
  s.flatMap quoteMetaChar

/-- Model of Go `strings.Join`. -/
def goJoin (sep : List Char) : List (List Char) → List Char
  | [] => []
  | [x] => x
  | x :: xs => x ++ sep ++ goJoin sep xs

/-! ## A scanner counting capturing groups of a regex string

Used to state how many capturing groups a compiled expression has: it counts
the `(` characters that open capturing groups, skipping escaped parentheses
and parentheses inside character classes, exactly as RE2 numbers groups for
the expressions this code base produces. -/

/-- Scanner state: top level, after a backslash, inside a class, after a
backslash inside a class. -/
inductive ScanSt where
  | norm | esc | cls | clsEsc
deriving DecidableEq

/-- One scanner step over a regex string. -/
def countStep : Nat × ScanSt → Char → Nat × ScanSt
  | (n, .norm), c =>
    if c = '\\' then (n, .esc)
    else if c = '(' then (n + 1, .norm)
    else if c = '[' then (n, .cls)
    else (n, .norm)
  | (n, .esc), _ => (n, .norm)
  | (n, .cls), c =>
    if c = '\\' then (n, .clsEsc)
    else if c = ']' then (n, .norm)
    else (n, .cls)
  | (n, .clsEsc), _ => (n, .cls)

/-- Number of capturing groups opened in a regex string. -/
def scanCount (s : List Char) : Nat :=
  (s.foldl countStep (0, .norm)).1

/-! ## Regular expressions: abstract syntax and parser

The parser is a single left-to-right fold over the input with an explicit
stack for parenthesised groups, so runs over concatenated inputs compose by
`List.foldl_append`. -/

/-- Regular-expression abstract syntax (the subset the route compiler emits).
`cls neg items` is a character class, `items` being closed ranges;
`group i r` is the capturing group with index `i`. -/
inductive Rx where
  | eps
  | ch (c : Char)
  | cls (neg : Bool) (items : List (Char × Char))
  | seq (r1 r2 : Rx)
  | group (i : Nat) (r : Rx)
  | plus (r : Rx)
deriving DecidableEq

/-- Sequence a list of expressions. -/
def mkSeq (l : List Rx) : Rx :=
  l.foldr .seq .eps

/-- Does a character class accept a character? -/
def clsMatch (neg : Bool) (items : List (Char × Char)) (c : Char) : Bool :=
  let hit := items.any fun p => p.1 ≤ c ∧ c ≤ p.2
  if neg then !hit else hit

/-- Parser mode: top level, after a backslash, right after `[` (with the
negation flag), inside a class body, after a backslash inside a class body.
A class body carries the ranges parsed so far, a pending lower character and
whether a range dash is pending. -/
inductive PMode where
  | norm
  | esc
  | clsStart (neg : Bool)
  | clsBody (neg : Bool) (items : List (Char × Char)) (pend : Option Char) (dash : Bool)
  | clsEsc (neg : Bool) (items : List (Char × Char)) (pend : Option Char) (dash : Bool)
deriving DecidableEq

/-- Parser state: the stack of open groups (saved atoms and group index),
the atoms parsed at the current level (reversed), the last atom (still open
for a repetition operator), the next capturing-group index, the mode and a
sticky error flag. -/
structure PSt where
  stack : List (List Rx × Nat)
  done : List Rx
  pend : Option Rx
  g : Nat
  mode : PMode
  ok : Bool
deriving DecidableEq

/-- Push the pending atom onto the finished list. -/
def flushList (done : List Rx) (pend : Option Rx) : List Rx :=
  match pend with
  | none => done
  | some a => a :: done

/-- Close a class body into its item list. -/
def closeItems (items : List (Char × Char)) (pend : Option Char) (dash : Bool) :
    List (Char × Char) :=
  match pend with
  | none => items
  | some a => if dash then items ++ [(a, a), ('-', '-')] else items ++ [(a, a)]

/-- Add one literal character to a class body. -/
def clsAdd (neg : Bool) (items : List (Char × Char)) (pend : Option Char) (dash : Bool)
    (c : Char) : PMode :=
  match pend with
  | some a => if dash then .clsBody neg (items ++ [(a, c)]) none false
              else .clsBody neg (items ++ [(a, a)]) (some c) false
  | none => .clsBody neg items (some c) false

/-- Mark the parser state as failed. -/
def pFail (st : PSt) : PSt :=
  { st with ok := false }

/-- One parser step. -/
def pstep (st : PSt) (c : Char) : PSt :=
  if !st.ok then st else
  match st.mode with
  | .norm =>
    if c = '\\' then { st with mode := .esc }
    else if c = '(' then
      { st with stack := (flushList st.done st.pend, st.g) :: st.stack,
                done := [], pend := none, g := st.g + 1 }
    else if c = ')' then
      match st.stack with
      | [] => pFail st
      | (d0, gi) :: rest =>
        { st with stack := rest, done := d0,
                  pend := some (.group gi (mkSeq (flushList st.done st.pend).reverse)) }
    else if c = '[' then
      { st with done := flushList st.done st.pend, pend := none, mode := .clsStart false }
    else if c = '+' then
      match st.pend with
      | none => pFail st
      | some a => { st with pend := some (.plus a) }
    else if c = '.' then
      { st with done := flushList st.done st.pend, pend := some (.cls true [('\n', '\n')]) }
    else if c ∈ ['*', '?', '{', '}', '|', '^', '$'] then pFail st
    else { st with done := flushList st.done st.pend, pend := some (.ch c) }
  | .esc =>
    if c.isAlphanum then pFail st
    else { st with done := flushList st.done st.pend, pend := some (.ch c), mode := .norm }
  | .clsStart neg =>
    if c = '^' ∧ !neg then { st with mode := .clsStart true }
    else if c = ']' then pFail st
    else if c = '\\' then { st with mode := .clsEsc neg [] none false }
    else { st with mode := .clsBody neg [] (some c) false }
  | .clsBody neg items pend dash =>
    if c = ']' then
      { st with mode := .norm, pend := some (.cls neg (closeItems items pend dash)) }
    else if c = '\\' then { st with mode := .clsEsc neg items pend dash }
    else if c = '-' ∧ pend.isSome ∧ !dash then { st with mode := .clsBody neg items pend true }
    else { st with mode := clsAdd neg items pend dash c }
  | .clsEsc neg items pend dash =>
    if c.isAlphanum then pFail st
    else { st with mode := clsAdd neg items pend dash c }

/-- Initial parser state. -/
def pInit : PSt :=
  ⟨[], [], none, 0, .norm, true⟩

/-- Extract the parsed expression and the number of capturing groups. -/
def pFinal (st : PSt) : Option (Rx × Nat) :=
  if st.ok ∧ st.stack = [] ∧ st.mode = .norm then
    some (mkSeq (flushList st.done st.pend).reverse, st.g)
  else none

/-- Model of `regexp.Compile` for the anchored expressions the route compiler
builds: the expression must start with `^` and end with `$`; the body is
parsed by the fold above. -/
def goRegexCompile (s : List Char) : Option (Rx × Nat) :=
  match s with
  | '^' :: rest =>
    if rest.getLast? = some '$' then pFinal (rest.dropLast.foldl pstep pInit)
    else none
  | _ => none

/-! ## The matcher

`results r s` lists, in backtracking preference order, every way `r` can
consume a prefix of `s`: each entry is the remaining suffix together with
the captures recorded so far.  `plus` repetitions are bounded by a fuel that
always suffices because an iteration must consume at least one character to
be continued. -/

/-- Captures: group index paired with the consumed characters. -/
abbrev Caps := List (Nat × List Char)

/-- Prepend already-made captures to every result. -/
def appendCaps (c1 : Caps) (l : List (List Char × Caps)) : List (List Char × Caps) :=
  l.map fun p => (p.1, c1 ++ p.2)

/-- Record capture `i` (the prefix of `s0` consumed so far) on every result. -/
def capMark (i : Nat) (s0 : List Char) (l : List (List Char × Caps)) :
    List (List Char × Caps) :=
  l.map fun p => (p.1, p.2 ++ [(i, s0.take (s0.length - p.1.length))])

mutual

/-- All ways `r` matches a prefix of `s`, best first. -/
def results : Rx → List Char → List (List Char × Caps)
  | .eps, s => [(s, [])]
  | .ch c, s =>
    match s with
    | [] => []
    | a :: rest => if a = c then [(rest, [])] else []
  | .cls neg items, s =>
    match s with
    | [] => []
    | a :: rest => if clsMatch neg items a then [(rest, [])] else []
  | .seq r1 r2, s => seqList r2 (results r1 s)
  | .group i r, s => capMark i s (results r s)
  | .plus r, s => plusN (s.length + 1) r s
termination_by r s => (sizeOf r, 0, 0, 0)

/-- Continue a sequence: run `r2` after every way the head matched. -/
def seqList (r2 : Rx) : List (List Char × Caps) → List (List Char × Caps)
  | [] => []
  | (s1, c1) :: rest => appendCaps c1 (results r2 s1) ++ seqList r2 rest
termination_by l => (sizeOf r2, 1, 0, l.length)

/-- One-or-more repetitions of `r`, with fuel bounding the iteration count. -/
def plusN : Nat → Rx → List Char → List (List Char × Caps)
  | 0, _, _ => []
  | n + 1, r, s => plusGo n r s (results r s)
termination_by n r _ => (sizeOf r, n, 0, 0)

/-- For every way one iteration matched: either keep iterating (only when it
made progress) or stop here. -/
def plusGo (n : Nat) (r : Rx) (s0 : List Char) :
    List (List Char × Caps) → List (List Char × Caps)
  | [] => []
  | (s1, c1) :: rest =>
    (if s1.length < s0.length then appendCaps c1 (plusN n r s1) ++ [(s1, c1)]
     else [(s1, c1)]) ++ plusGo n r s0 rest
termination_by l => (sizeOf r, n, 1, l.length)

end

/-- Keep only the results that consumed the whole input. -/
def fullOf (l : List (List Char × Caps)) : List Caps :=
  l.filterMap fun p => if p.1 = [] then some p.2 else none

/-- The full-match captures of `r` on `s`, best first. -/
def fullResults (rx : Rx) (s : List Char) : List Caps :=
  fullOf (results rx s)

/-- The reported text of capturing group `i` (Go keeps the last hit; an
unmatched group reports the empty string). -/
def capStr (caps : Caps) (i : Nat) : List Char :=
  match (caps.filter fun q => q.1 = i).getLast? with
  | some q => q.2
  | none => []

/-- Model of `Regexp.FindStringSubmatch` for the anchored expressions used
here: `none` is Go's nil slice; a hit returns the whole match followed by one
entry per capturing group. -/
def findStringSubmatch (pat : List Char) (s : List Char) : Option (List (List Char)) :=
  match goRegexCompile pat with
  | none => none
  | some (rx, ng) =>
    match fullResults rx s with
    | [] => none
    | caps :: _ => some (s :: (List.range ng).map (capStr caps))

/-! ## Route compilation (`Handle`, feather.go lines 84-135) -/

/-- The classification `Handle` gives one non-empty pattern fragment:
a dynamic segment (matcher fragment and recorded parameter name), a static
literal, or a registration-time panic (Go slices `parts[0][1:]` with
`parts[0]` empty). -/
inductive FragResult where
  | dyn (rx : List Char) (name : List Char)
  | static (rx : List Char)
  | broken
deriving DecidableEq

/-- One loop iteration of `Handle` (feather.go lines 93-112) on a non-empty
fragment: split the fragment on `|`, then
a single part starting with `:` is a default dynamic segment `([^/]+)`,
exactly two parts give a dynamic segment wrapping the second part in a
group, and anything else is a quoted static literal. -/
def compileFragment (fragment : List Char) : FragResult :=
  let parts := goSplit '|' fragment
  if parts.length = 1 ∧ fragment.head? = some ':' then
    .dyn ("([^/]+)".data) ((parts.headD []).drop 1)
  else if parts.length = 2 then
    if parts.headD [] = [] then .broken
    else .dyn ('(' :: (parts.getD 1 [] ++ [')'])) ((parts.headD []).drop 1)
  else .static (quoteMeta fragment)

/-- The whole fragment loop: empty fragments are skipped; the fragment
matchers and the parameter names accumulate in order.  `none` models the
panic on a fragment whose part before `|` is empty. -/
def compileSegs : List (List Char) → Option (List (List Char) × List (List Char))
  | [] => some ([], [])
  | f :: rest =>
    if f = [] then compileSegs rest
    else
      match compileFragment f with
      | .broken => none
      | .dyn rx name => (compileSegs rest).map fun p => (rx :: p.1, name :: p.2)
      | .static rx => (compileSegs rest).map fun p => (rx :: p.1, p.2)

/-- Split the pattern on `/`, compile every fragment and build
`"^/" + strings.Join(fragmentRegex, "/") + "$"` together with the parameter
list (feather.go lines 93-114). -/
def mkRegexPattern (pattern : List Char) : Option (List Char × List (List Char)) :=
  (compileSegs (goSplit '/' pattern)).map fun p =>
    (('^' :: '/' :: goJoin ['/'] p.1) ++ ['$'], p.2)

/-- A compiled route: the anchored matcher source, the parameter names in
order, and the handler.  Handlers are identified by an abstract type `H`;
their behaviour is supplied to the dispatcher as an interpretation. -/
structure Route (H : Type) where
  regex : List Char
  params : List (List Char)
  handler : H
deriving DecidableEq

/-- The server: routes per HTTP method (a Go map to ordered slices), and the
global middleware list. -/
structure Server (H : Type) where
  routes : List (List Char × List (Route H))
  middlewares : List H
deriving DecidableEq

/-- `NewServer`: empty route table, empty middleware list. -/
def Server.empty : Server H :=
  ⟨[], []⟩

/-- Append a route under one method, creating the slice on first use. -/
def addRoute (rts : List (List Char × List (Route H))) (m : List Char) (r : Route H) :
    List (List Char × List (Route H)) :=
  match assocGet rts m with
  | none => rts ++ [(m, [r])]
  | some l => assocSet rts m (l ++ [r])

/-- `Handle` (feather.go lines 84-135): default an empty method list to
`["GET"]`, compile the pattern, abort registration (`none`, modelling
`os.Exit`/panic) if compilation fails, else append the route under every
method. -/
def Server.handle (server : Server H) (pattern : List Char) (handler : H)
    (methods : List (List Char)) : Option (Server H) :=
  let ms := if methods = [] then ["GET".data] else methods
  match mkRegexPattern pattern with
  | none => none
  | some (rx, ps) =>
    match goRegexCompile rx with
    | none => none
    | some _ =>
      some { server with
             routes := ms.foldl (fun a m => addRoute a m ⟨rx, ps, handler⟩) server.routes }

/-- `GET` shorthand (feather.go line 152). -/
def Server.GET (server : Server H) (pattern : List Char) (handler : H) : Option (Server H) :=
  server.handle pattern handler ["GET".data]

/-- `POST` shorthand (feather.go line 171). -/
def Server.POST (server : Server H) (pattern : List Char) (handler : H) : Option (Server H) :=
  server.handle pattern handler ["POST".data]

/-- `AddMiddleware` (feather.go lines 60-64): append in order. -/
def Server.addMiddleware (server : Server H) (mws : List H) : Server H :=
  { server with middlewares := server.middlewares ++ mws }

/-! ## The request context (`context.go`) -/

/-- Values stored in the context's `Data` map: booleans, strings, and
handler slices (the `PostFunc` entry). -/
inductive Val (H : Type) where
  | bool (b : Bool)
  | str (s : List Char)
  | hooks (fs : List H)
deriving DecidableEq

/-- The per-request context: the extracted path parameters and the shared
scratch map `Data`. -/
structure Ctx (H : Type) where
  params : List (List Char × List Char)
  data : List (List Char × Val H)
deriving DecidableEq

/-- `Context.Set` (context.go line 139). -/
def Ctx.set (c : Ctx H) (k : List Char) (v : Val H) : Ctx H :=
  { c with data := assocSet c.data k v }

/-- `Context.Get` (context.go line 143): `none` is Go's nil for a missing key. -/
def Ctx.get (c : Ctx H) (k : List Char) : Option (Val H) :=
  assocGet c.data k

/-- `Context.Abort` (context.go line 151): write `true` under `"Abort"`. -/
def Ctx.abort (c : Ctx H) : Ctx H :=
  c.set "Abort".data (.bool true)

/-- `Context.Post` (context.go lines 155-163): append to the `"PostFunc"`
slice; `none` models the panic of the unchecked type assertion when the
entry is missing or not a handler slice. -/
def Ctx.post (c : Ctx H) (f : H) : Option (Ctx H) :=
  match c.get "PostFunc".data with
  | some (.hooks fs) => some (c.set "PostFunc".data (.hooks (fs ++ [f])))
  | _ => none

/-- The abort check the dispatcher performs (`context.Get("Abort").(bool)`
followed by the `if`): `true` exactly when the entry is the boolean `true`.
This is the only way the request pipeline observes the flag. -/
def Ctx.isAborted (c : Ctx H) : Bool :=
  match c.get "Abort".data with
  | some (.bool true) => true
  | _ => false

/-! ## The dispatcher (`ServeHTTP`, feather.go lines 247-306) -/

/-- What the dispatcher did, in order: middleware invocations, the handler
invocation (with the route's index), post-hook invocations. -/
inductive Event (H : Type) where
  | mid (h : H)
  | handler (i : Nat)
  | post (h : H)
deriving DecidableEq

/-- How a dispatch ended: an immediate 405 or 404 error response, a normal
run of the pipeline, or a panic escaping `ServeHTTP`. -/
inductive Response where
  | methodNotAllowed
  | notFound
  | dispatched
  | panicked
deriving DecidableEq

/-- How the middleware loop ended. -/
inductive MwExit where
  | completed
  | aborted
  | panicked
deriving DecidableEq

/-- The matching scan (feather.go lines 258-272): first route whose matcher
hits the path, with its index and the submatch slice. -/
def findRoute : List (Route H) → List Char → Option (Nat × Route H × List (List Char))
  | [], _ => none
  | r :: rest, path =>
    match findStringSubmatch r.regex path with
    | some m => some (0, r, m)
    | none => (findRoute rest path).map fun p => (p.1 + 1, p.2)

/-- The loop of feather.go lines 264-266, one step per parameter name. -/
def buildParamsGo (subs : List (List Char)) :
    List (List Char) → Nat → List (List Char × List Char) → List (List Char × List Char)
  | [], _, acc => acc
  | nm :: rest, j, acc => buildParamsGo subs rest (j + 1) (assocSet acc nm (subs.getD (j + 1) []))

/-- The parameter map built by the scan: `params[paramName] = matches[j+1]`
for `j` running over the name list in order. -/
def buildParams (names : List (List Char)) (subs : List (List Char)) :
    List (List Char × List Char) :=
  buildParamsGo subs names 0 []

/-- The middleware loop (feather.go lines 288-294): run each middleware,
then check the abort flag; a `true` boolean breaks the loop, a `false`
boolean continues, anything else is the type-assertion panic. -/
def mwLoop (interp : H → Ctx H → Ctx H) : List H → Ctx H → Ctx H × List (Event H) × MwExit
  | [], c => (c, [], .completed)
  | mw :: rest, c =>
    let c' := interp mw c
    match c'.get "Abort".data with
    | some (.bool true) => (c', [.mid mw], .aborted)
    | some (.bool false) =>
      let out := mwLoop interp rest c'
      (out.1, .mid mw :: out.2.1, out.2.2)
    | _ => (c', [.mid mw], .panicked)

/-- The post-hook loop (feather.go lines 303-305) over the snapshot read at
line 298. -/
def runPosts (interp : H → Ctx H → Ctx H) : List H → Ctx H → Ctx H × List (Event H)
  | [], c => (c, [])
  | f :: rest, c =>
    let c' := interp f c
    let out := runPosts interp rest c'
    (out.1, .post f :: out.2)

/-- The outcome of `ServeHTTP`: the response kind, the invocation trace, and
the final context (absent on 405/404, where no context is ever built). -/
structure DispatchResult (H : Type) where
  response : Response
  events : List (Event H)
  ctx : Option (Ctx H)
deriving DecidableEq

/-- `ServeHTTP` (feather.go lines 247-306).  Method lookup failure is a 405;
a scan with no hit is a 404; otherwise the context is created with the bound
parameters, `PostFunc` and `Abort` are initialised, the middleware loop runs
with its abort check, the matched handler is invoked (the source invokes it
unconditionally after the loop), and the `PostFunc` snapshot is read once
and run (a missing or ill-typed entry returns silently). -/
def Server.serve (server : Server H) (interp : H → Ctx H → Ctx H)
    (method path : List Char) : DispatchResult H :=
  match assocGet server.routes method with
  | none => ⟨.methodNotAllowed, [], none⟩
  | some rts =>
    match findRoute rts path with
    | none => ⟨.notFound, [], none⟩
    | some (i, route, subs) =>
      let ctx0 : Ctx H :=
        ⟨buildParams route.params subs,
         [("PostFunc".data, .hooks []), ("Abort".data, .bool false)]⟩
      match mwLoop interp server.middlewares ctx0 with
      | (c1, evs, .panicked) => ⟨.panicked, evs, some c1⟩
      | (c1, evs, _) =>
        let c2 := interp route.handler c1
        match c2.get "PostFunc".data with
        | some (.hooks fs) =>
          let out := runPosts interp fs c2
          ⟨.dispatched, evs ++ .handler i :: out.2, some out.1⟩
        | _ => ⟨.dispatched, evs ++ [.handler i], some c2⟩

/-- The post-hook invocations of a trace, in order. -/
def postEvents (l : List (Event H)) : List H :=
  l.filterMap fun e =>
    match e with
    | .post h => some h
    | _ => none

/-- The `PostFunc` snapshot `ServeHTTP` reads right after the handler
returns (feather.go line 298): replaying the pipeline up to that read;
empty when the pipeline never reaches the read or the entry is ill-typed. -/
def postSnapshot (server : Server H) (interp : H → Ctx H → Ctx H)
    (method path : List Char) : List H :=
  match assocGet server.routes method with
  | none => []
  | some rts =>
    match findRoute rts path with
    | none => []
    | some (_, route, subs) =>
      let ctx0 : Ctx H :=
        ⟨buildParams route.params subs,
         [("PostFunc".data, .hooks []), ("Abort".data, .bool false)]⟩
      match mwLoop interp server.middlewares ctx0 with
      | (_, _, .panicked) => []
      | (c1, _, _) =>
        match (interp route.handler c1).get "PostFunc".data with
        | some (.hooks fs) => fs
        | _ => []

/-- The path a static-only pattern canonicalises to: leading slash, empty
segments dropped. -/
def canonicalPath (pattern : List Char) : List Char :=
  '/' :: goJoin ['/'] ((goSplit '/' pattern).filter (· ≠ []))

/-! ## Association-list and split lemmas -/

theorem assocGet_set_self [DecidableEq α] (l : List (α × β)) (k : α) (v : β) :
    assocGet (assocSet l k v) k = some v := by
  induction l with
  | nil => simp [assocGet, assocSet]
  | cons p rest ih =>
    obtain ⟨k', v'⟩ := p
    by_cases h : k' = k
    · simp [assocSet, assocGet, h]
    · simp [assocSet, assocGet, h, ih]

theorem assocGet_set_ne [DecidableEq α] (l : List (α × β)) (k k2 : α) (v : β)
    (h : k ≠ k2) : assocGet (assocSet l k v) k2 = assocGet l k2 := by
  induction l with
  | nil => simp [assocGet, assocSet, h]
  | cons p rest ih =>
    obtain ⟨k', v'⟩ := p
    by_cases hk : k' = k
    · subst hk
      simp [assocSet, assocGet, h]
    · simp [assocSet, assocGet, hk, ih]

theorem goSplit_ne_nil (sep : Char) (s : List Char) : goSplit sep s ≠ [] := by
  cases s with
  | nil => simp [goSplit]
  | cons c rest =>
    by_cases h : c = sep
    · simp [goSplit, h]
    · simp only [goSplit, if_neg h]
      cases hg : goSplit sep rest <;> simp

theorem goSplit_of_not_mem (sep : Char) (s : List Char) (h : sep ∉ s) :
    goSplit sep s = [s] := by
  induction s with
  | nil => simp [goSplit]
  | cons c rest ih =>
    have hc : c ≠ sep := fun he => h (he ▸ List.mem_cons_self c rest)
    have hr : sep ∉ rest := fun hm => h (List.mem_cons_of_mem c hm)
    simp [goSplit, hc, ih hr]

theorem goSplit_length (sep : Char) (s : List Char) :
    (goSplit sep s).length = s.count sep + 1 := by
  induction s with
  | nil => simp [goSplit]
  | cons c rest ih =>
    by_cases h : c = sep
    · subst h
      simp [goSplit, List.count_cons, ih]
    · simp only [goSplit, if_neg h]
      rcases hg : goSplit sep rest with _ | ⟨g, gs⟩
      · exact absurd hg (goSplit_ne_nil sep rest)
      · have := ih
        rw [hg] at this
        simp only [List.length_cons] at this ⊢
        simp [List.count_cons, Ne.symm h, ← this]

theorem quoteMeta_append (a b : List Char) :
    quoteMeta (a ++ b) = quoteMeta a ++ quoteMeta b := by
  simp [quoteMeta]

theorem quoteMeta_cons (c : Char) (s : List Char) :
    quoteMeta (c :: s) = quoteMetaChar c ++ quoteMeta s := by
  simp [quoteMeta]

/-! ## Matcher lemmas -/

theorem appendCaps_nil (l : List (List Char × Caps)) : appendCaps [] l = l := by
  simp [appendCaps]

theorem seqList_eps (l : List (List Char × Caps)) : seqList .eps l = l := by
  induction l with
  | nil => simp [seqList]
  | cons p rest ih =>
    obtain ⟨s1, c1⟩ := p
    simp [seqList, results, appendCaps, ih]

theorem results_seq_eps (r : Rx) (s : List Char) :
    results (.seq r .eps) s = results r s := by
  rw [results]
  exact seqList_eps _

theorem results_lit_pre (cs t : List Char) :
    results (mkSeq (cs.map .ch)) (cs ++ t) = [(t, [])] := by
  induction cs with
  | nil => simp [mkSeq, results]
  | cons c cs ih =>
    simp [mkSeq, results, seqList, appendCaps_nil] at ih ⊢
    exact ih

theorem results_lit_none (cs : List Char) : ∀ s, ¬ cs <+: s →
    results (mkSeq (cs.map .ch)) s = [] := by
  induction cs with
  | nil => intro s h; exact absurd (List.nil_prefix) h
  | cons c cs ih =>
    intro s h
    cases s with
    | nil => simp [mkSeq, results, seqList]
    | cons a s' =>
      by_cases hac : a = c
      · subst hac
        have hns : ¬ cs <+: s' := fun hp => h (List.cons_prefix_cons.2 ⟨rfl, hp⟩)
        simp [mkSeq, results, seqList, appendCaps_nil] at ih ⊢
        exact ih s' hns
      · simp [mkSeq, results, seqList, hac]

theorem fullOf_append (a b : List (List Char × Caps)) :
    fullOf (a ++ b) = fullOf a ++ fullOf b := by
  simp [fullOf]

theorem fullResults_lit (cs s : List Char) :
    fullResults (mkSeq (cs.map .ch)) s = if s = cs then [[]] else [] := by
  by_cases hp : cs <+: s
  · obtain ⟨t, rfl⟩ := hp
    unfold fullResults
    rw [results_lit_pre]
    cases t with
    | nil => simp [fullOf]
    | cons x xs => simp [fullOf]
  · have hne : cs ++ [] ≠ cs ∨ True := Or.inr trivial
    have hsne : s ≠ cs := by
      rintro rfl
      exact hp (List.prefix_refl s)
    unfold fullResults
    rw [results_lit_none cs s hp]
    simp [fullOf, hsne]

/-! ## The `([^/]+)` matcher -/

/-- The class `[^/]`. -/
def clsNS : Rx := .cls true [('/', '/')]

/-- The parse of `^/([^/]+)$`, the matcher every bare `:name` segment
compiles to. -/
def rxDyn : Rx :=
  .seq (.ch '/') (.seq (.group 0 (.seq (.plus clsNS) .eps)) .eps)

theorem goRegexCompile_rxDyn : goRegexCompile "^/([^/]+)$".data = some (rxDyn, 1) := by
  decide

theorem clsMatch_NS (a : Char) : clsMatch true [('/', '/')] a = !(a == '/') := by
  by_cases h : a = '/'
  · simp [clsMatch, h]
  · rcases lt_or_gt_of_ne h with hlt | hgt
    · simp [clsMatch, h, not_le.2 hlt]
    · simp [clsMatch, h, not_le.2 hgt]

theorem results_clsNS (s : List Char) :
    results clsNS s = match s with
      | [] => []
      | a :: rest => if a = '/' then [] else [(rest, [])] := by
  cases s with
  | nil => simp [clsNS, results]
  | cons a rest =>
    by_cases h : a = '/' <;> simp [clsNS, results, clsMatch_NS, h]

theorem fullOf_plusN_clsNS : ∀ n t, t.length + 1 ≤ n →
    fullOf (plusN n clsNS t) = if t ≠ [] ∧ t.all (· ≠ '/') then [[]] else [] := by
  intro n
  induction n with
  | zero => intro t h; omega
  | succ n ih =>
    intro t h
    cases t with
    | nil =>
      simp [plusN, results_clsNS, plusGo, fullOf]
    | cons c t' =>
      by_cases hc : c = '/'
      · simp [plusN, results_clsNS, hc, plusGo, fullOf]
      · have hlt : t'.length < (c :: t').length := by simp
        have hn : t'.length + 1 ≤ n := by
          simp at h
          omega
        rw [plusN, results_clsNS]
        simp only [if_neg hc, plusGo, hlt, if_true, appendCaps_nil]
        rw [List.append_nil, fullOf_append, ih t' hn]
        cases t' with
        | nil => simp [fullOf, hc]
        | cons d t'' =>
          by_cases hall : (d :: t'').all (· ≠ '/') <;> simp [fullOf, hc, hall]

theorem fullOf_capMark (i : Nat) (s0 : List Char) (l : List (List Char × Caps)) :
    fullOf (capMark i s0 l) = (fullOf l).map (· ++ [(i, s0)]) := by
  induction l with
  | nil => simp [capMark, fullOf]
  | cons p rest ih =>
    obtain ⟨s1, c1⟩ := p
    by_cases h : s1 = []
    · subst h
      simp [capMark, fullOf, List.filterMap_cons] at ih ⊢
      exact ih
    · simp [capMark, fullOf, List.filterMap_cons, h] at ih ⊢
      exact ih

theorem fullResults_rxDyn_slash (x : List Char) :
    fullResults rxDyn ('/' :: x) =
      if x ≠ [] ∧ x.all (· ≠ '/') then [[(0, x)]] else [] := by
  have h1 : results rxDyn ('/' :: x) =
      results (.seq (.group 0 (.seq (.plus clsNS) .eps)) .eps) x := by
    rw [rxDyn, results]
    simp [results, seqList, appendCaps_nil]
  rw [fullResults, h1, results_seq_eps, results]
  have h2 : results (.seq (.plus clsNS) .eps) x = results (.plus clsNS) x :=
    results_seq_eps _ _
  rw [h2, fullOf_capMark]
  have h3 : fullOf (results (.plus clsNS) x) =
      if x ≠ [] ∧ x.all (· ≠ '/') then [[]] else [] := by
    rw [results]
    exact fullOf_plusN_clsNS (x.length + 1) x (le_refl _)
  rw [h3]
  by_cases hc : x ≠ [] ∧ x.all (· ≠ '/')
  · rw [if_pos hc, if_pos hc]
    rfl
  · rw [if_neg hc, if_neg hc]
    rfl

theorem fullResults_rxDyn_nil : fullResults rxDyn [] = [] := by
  simp [fullResults, rxDyn, results, seqList, fullOf]

theorem fullResults_rxDyn_other (a : Char) (x : List Char) (h : a ≠ '/') :
    fullResults rxDyn (a :: x) = [] := by
  simp [fullResults, rxDyn, results, seqList, h, fullOf]

/-- `FindStringSubmatch` with matcher `^/([^/]+)$` on a one-segment path:
the whole path and the captured segment. -/
theorem findSub_dyn_hit (x : List Char) (h1 : x ≠ []) (h2 : x.all (· ≠ '/')) :
    findStringSubmatch "^/([^/]+)$".data ('/' :: x) = some ['/' :: x, x] := by
  unfold findStringSubmatch
  rw [goRegexCompile_rxDyn]
  dsimp only
  rw [fullResults_rxDyn_slash, if_pos (And.intro h1 h2)]
  dsimp only
  rw [show List.range 1 = [0] from rfl]
  simp [capStr]

theorem findSub_dyn_miss (x : List Char) (h : ¬(x ≠ [] ∧ x.all (· ≠ '/'))) :
    findStringSubmatch "^/([^/]+)$".data ('/' :: x) = none := by
  unfold findStringSubmatch
  rw [goRegexCompile_rxDyn]
  dsimp only
  rw [fullResults_rxDyn_slash, if_neg h]

theorem findSub_dyn_nil : findStringSubmatch "^/([^/]+)$".data [] = none := by
  unfold findStringSubmatch
  rw [goRegexCompile_rxDyn]
  dsimp only
  rw [fullResults_rxDyn_nil]

theorem findSub_dyn_other (a : Char) (x : List Char) (h : a ≠ '/') :
    findStringSubmatch "^/([^/]+)$".data (a :: x) = none := by
  unfold findStringSubmatch
  rw [goRegexCompile_rxDyn]
  dsimp only
  rw [fullResults_rxDyn_other a x h]

/-! ## Parsing quoted literals -/

/-- The parser's `(done, pend)` evolution over a run of literal characters. -/
def litPush (dp : List Rx × Option Rx) (cs : List Char) : List Rx × Option Rx :=
  cs.foldl (fun q c => (flushList q.1 q.2, some (.ch c))) dp

theorem pstep_quoteMetaChar (stk : List (List Rx × Nat)) (d : List Rx) (p : Option Rx)
    (g : Nat) (c : Char) :
    List.foldl pstep ⟨stk, d, p, g, .norm, true⟩ (quoteMetaChar c) =
      ⟨stk, flushList d p, some (.ch c), g, .norm, true⟩ := by
  by_cases hc : c ∈ goSpecialChars
  · rw [quoteMetaChar, if_pos hc]
    simp only [goSpecialChars, List.mem_cons, List.mem_singleton] at hc
    rcases hc with rfl | rfl | rfl | rfl | rfl | rfl | rfl | rfl | rfl | rfl | rfl | rfl |
      rfl | rfl | h
    all_goals first
      | rfl
      | exact absurd h (List.not_mem_nil c)
  · rw [quoteMetaChar, if_neg hc]
    simp only [goSpecialChars, List.mem_cons, List.mem_singleton] at hc
    push_neg at hc
    obtain ⟨h1, h2, h3, h4, h5, h6, h7, h8, h9, h10, h11, h12, h13, h14, -⟩ := hc
    have halnum : ¬(c.isAlphanum = true) ∨ True := Or.inr trivial
    simp [pstep, h1, h2, h3, h4, h5, h6, h7, h8, h9, h10, h11, h12, h13, h14]

theorem foldl_pstep_quoteMeta (cs : List Char) : ∀ stk d p g,
    List.foldl pstep ⟨stk, d, p, g, .norm, true⟩ (quoteMeta cs) =
      ⟨stk, (litPush (d, p) cs).1, (litPush (d, p) cs).2, g, .norm, true⟩ := by
  induction cs with
  | nil => intro stk d p g; simp [quoteMeta, litPush]
  | cons c cs ih =>
    intro stk d p g
    rw [quoteMeta_cons, List.foldl_append, pstep_quoteMetaChar, ih]
    simp [litPush]

theorem flushList_litPush (cs : List Char) : ∀ d p,
    flushList (litPush (d, p) cs).1 (litPush (d, p) cs).2 =
      (cs.map .ch).reverse ++ flushList d p := by
  induction cs with
  | nil => intro d p; simp [litPush]
  | cons c cs ih =>
    intro d p
    have hstep : litPush (d, p) (c :: cs) = litPush (flushList d p, some (.ch c)) cs := by
      simp [litPush]
    rw [hstep, ih]
    simp [flushList]

theorem goRegexCompile_lit (cs : List Char) :
    goRegexCompile ('^' :: (quoteMeta cs ++ ['$'])) = some (mkSeq (cs.map .ch), 0) := by
  show (if (quoteMeta cs ++ ['$']).getLast? = some '$' then
      pFinal (List.foldl pstep pInit (quoteMeta cs ++ ['$']).dropLast) else none) =
    some (mkSeq (cs.map .ch), 0)
  rw [List.getLast?_concat, List.dropLast_concat]
  rw [show pInit = (⟨[], [], none, 0, .norm, true⟩ : PSt) from rfl,
    foldl_pstep_quoteMeta]
  unfold pFinal
  rw [if_pos (by simp)]
  have := flushList_litPush cs [] none
  rw [this]
  simp [flushList]

/-- `FindStringSubmatch` for a quoted-literal matcher: hits exactly the
literal itself, with no capturing groups. -/
theorem findSub_lit (cs s : List Char) :
    findStringSubmatch ('^' :: (quoteMeta cs ++ ['$'])) s =
      if s = cs then some [s] else none := by
  unfold findStringSubmatch
  rw [goRegexCompile_lit]
  dsimp only
  rw [fullResults_lit]
  by_cases he : s = cs
  · rw [if_pos he, if_pos he]
    rfl
  · rw [if_neg he, if_neg he]

/-! ## Compilation-shape lemmas -/

theorem quoteMetaChar_slash : quoteMetaChar '/' = ['/'] := by decide

theorem compileSegs_static (segs : List (List Char))
    (h : ∀ f ∈ segs, f = [] ∨ compileFragment f = .static (quoteMeta f)) :
    compileSegs segs = some ((segs.filter (· ≠ [])).map quoteMeta, []) := by
  induction segs with
  | nil => simp [compileSegs]
  | cons f rest ih =>
    have hr : ∀ g ∈ rest, g = [] ∨ compileFragment g = .static (quoteMeta g) :=
      fun g hg => h g (List.mem_cons_of_mem f hg)
    rcases h f (List.mem_cons_self f rest) with rfl | hst
    · simp [compileSegs, ih hr]
    · by_cases hfe : f = []
      · simp [compileSegs, hfe, ih hr]
      · simp [compileSegs, hfe, hst, ih hr]

theorem goJoin_map_quoteMeta (l : List (List Char)) :
    goJoin ['/'] (l.map quoteMeta) = quoteMeta (goJoin ['/'] l) := by
  induction l with
  | nil => simp [goJoin, quoteMeta]
  | cons x xs ih =>
    cases xs with
    | nil => simp [goJoin]
    | cons y ys =>
      simp only [List.map_cons, goJoin, quoteMeta_append]
      rw [show quoteMeta ['/'] = ['/'] from by decide]
      have ih' : goJoin ['/'] (quoteMeta y :: List.map quoteMeta ys) =
          quoteMeta (goJoin ['/'] (y :: ys)) := by simpa using ih
      rw [ih']

theorem mkRegexPattern_static (pattern : List Char)
    (h : ∀ f ∈ goSplit '/' pattern, f = [] ∨ compileFragment f = .static (quoteMeta f)) :
    mkRegexPattern pattern =
      some ('^' :: (quoteMeta (canonicalPath pattern) ++ ['$']), []) := by
  unfold mkRegexPattern
  rw [compileSegs_static _ h]
  have hq : quoteMeta (canonicalPath pattern) =
      '/' :: goJoin ['/'] (((goSplit '/' pattern).filter (· ≠ [])).map quoteMeta) := by
    rw [canonicalPath, quoteMeta_cons, quoteMetaChar_slash, goJoin_map_quoteMeta]
    rfl
  rw [hq]
  rfl

theorem mkRegexPattern_dynName (name : List Char)
    (h2 : '|' ∉ name) (h3 : '/' ∉ name) :
    mkRegexPattern ('/' :: ':' :: name) = some ("^/([^/]+)$".data, [name]) := by
  have hs1 : goSplit '/' (':' :: name) = [':' :: name] :=
    goSplit_of_not_mem _ _ (by
      intro hm
      rcases List.mem_cons.1 hm with he | hm'
      · exact absurd he (by decide)
      · exact h3 hm')
  have hsp : goSplit '/' ('/' :: ':' :: name) = [[], ':' :: name] := by
    conv_lhs => rw [goSplit]
    rw [if_pos rfl, hs1]
  have hs2 : goSplit '|' (':' :: name) = [':' :: name] :=
    goSplit_of_not_mem _ _ (by
      intro hm
      rcases List.mem_cons.1 hm with he | hm'
      · exact absurd he (by decide)
      · exact h2 hm')
  have hfrag : compileFragment (':' :: name) = .dyn "([^/]+)".data name := by
    unfold compileFragment
    rw [hs2]
    simp
  unfold mkRegexPattern
  rw [hsp]
  unfold compileSegs
  rw [if_pos rfl]
  unfold compileSegs
  rw [if_neg (by simp), hfrag]
  unfold compileSegs
  simp [goJoin]

/-! ## Dispatcher lemmas -/

theorem findRoute_spec {H : Type} (path : List Char) :
    ∀ (rts : List (Route H)) i r m, findRoute rts path = some (i, r, m) →
      rts[i]? = some r ∧ findStringSubmatch r.regex path = some m ∧
      ∀ j, j < i → ∀ rj, rts[j]? = some rj → findStringSubmatch rj.regex path = none := by
  intro rts
  induction rts with
  | nil => intro i r m h; simp [findRoute] at h
  | cons r0 rest ih =>
    intro i r m h
    rw [findRoute] at h
    rcases hm : findStringSubmatch r0.regex path with _ | m0
    · rw [hm] at h
      rcases hr : findRoute rest path with _ | p
      · rw [hr] at h
        exact absurd h (by simp)
      · obtain ⟨i', r', m'⟩ := p
        rw [hr] at h
        have h' : (i' + 1, r', m') = (i, r, m) := by
          simpa using h
        obtain ⟨ha, hb⟩ := Prod.mk.inj h'
        obtain ⟨hb1, hb2⟩ := Prod.mk.inj hb
        subst ha
        subst hb1
        subst hb2
        obtain ⟨pa, pb, pc⟩ := ih i' r' m' hr
        refine ⟨by simpa using pa, pb, ?_⟩
        intro j hj rj hrj
        cases j with
        | zero =>
          simp only [List.getElem?_cons_zero, Option.some.injEq] at hrj
          exact hrj ▸ hm
        | succ j' =>
          simp only [List.getElem?_cons_succ] at hrj
          exact pc j' (by omega) rj hrj
    · rw [hm] at h
      have h' : ((0 : Nat), r0, m0) = (i, r, m) := Option.some.inj h
      obtain ⟨ha, hb⟩ := Prod.mk.inj h'
      obtain ⟨hb1, hb2⟩ := Prod.mk.inj hb
      subst ha
      subst hb1
      subst hb2
      exact ⟨by simp, hm, fun j hj => absurd hj (by omega)⟩

theorem findRoute_none_of_all {H : Type} (path : List Char) :
    ∀ (rts : List (Route H)), (∀ r ∈ rts, findStringSubmatch r.regex path = none) →
      findRoute rts path = none := by
  intro rts
  induction rts with
  | nil => intro _; rfl
  | cons r0 rest ih =>
    intro h
    rw [findRoute, h r0 (List.mem_cons_self r0 rest),
      ih (fun r hr => h r (List.mem_cons_of_mem r0 hr))]
    rfl

theorem serve_methodNotAllowed {H : Type} (server : Server H)
    (interp : H → Ctx H → Ctx H) (method path : List Char)
    (h : assocGet server.routes method = none) :
    server.serve interp method path = ⟨.methodNotAllowed, [], none⟩ := by
  unfold Server.serve
  rw [h]

theorem serve_notFound {H : Type} (server : Server H)
    (interp : H → Ctx H → Ctx H) (method path : List Char) (rts : List (Route H))
    (h1 : assocGet server.routes method = some rts)
    (h2 : findRoute rts path = none) :
    server.serve interp method path = ⟨.notFound, [], none⟩ := by
  unfold Server.serve
  rw [h1]
  dsimp only
  rw [h2]

theorem postEvents_append {H : Type} (a b : List (Event H)) :
    postEvents (a ++ b) = postEvents a ++ postEvents b := by
  simp [postEvents]

theorem mwLoop_no_posts {H : Type} (interp : H → Ctx H → Ctx H) :
    ∀ (mws : List H) (c : Ctx H), postEvents (mwLoop interp mws c).2.1 = [] := by
  intro mws
  induction mws with
  | nil => intro c; rfl
  | cons mw rest ih =>
    intro c
    rw [mwLoop]
    rcases hg : (interp mw c).get "Abort".data with _ | v
    · rfl
    · rcases v with b | sv | fs
      · cases b
        · dsimp only
          simp only [postEvents, List.filterMap_cons]
          exact ih _
        · rfl
      · rfl
      · rfl

theorem postEvents_nil {H : Type} : postEvents ([] : List (Event H)) = [] := rfl

theorem postEvents_cons_handler {H : Type} (i : Nat) (l : List (Event H)) :
    postEvents (Event.handler i :: l) = postEvents l := by
  simp [postEvents]

theorem postEvents_cons_post {H : Type} (h : H) (l : List (Event H)) :
    postEvents (Event.post h :: l) = h :: postEvents l := by
  simp [postEvents]

theorem postEvents_runPosts {H : Type} (interp : H → Ctx H → Ctx H) :
    ∀ (fs : List H) (c : Ctx H), postEvents (runPosts interp fs c).2 = fs := by
  intro fs
  induction fs with
  | nil => intro c; rfl
  | cons f rest ih =>
    intro c
    rw [runPosts]
    dsimp only
    rw [postEvents_cons_post, ih]

/-- The dispatcher's post-hook invocations are exactly the `PostFunc`
snapshot taken right after the handler returned, in order: hooks registered
later (by a running post-hook) are absent. -/
theorem serve_posts_eq_snapshot {H : Type} (server : Server H)
    (interp : H → Ctx H → Ctx H) (method path : List Char) :
    postEvents (server.serve interp method path).events =
      postSnapshot server interp method path := by
  unfold Server.serve postSnapshot
  rcases h1 : assocGet server.routes method with _ | rts
  · rfl
  · dsimp only
    rcases h2 : findRoute rts path with _ | ⟨⟨i, route, subs⟩⟩
    · rfl
    · dsimp only
      rcases h3 : mwLoop interp server.middlewares
          ⟨buildParams route.params subs,
           [("PostFunc".data, .hooks []), ("Abort".data, .bool false)]⟩ with ⟨c1, evs, ex⟩
      have hevs : postEvents evs = [] := by
        have hall := mwLoop_no_posts interp server.middlewares
          ⟨buildParams route.params subs,
           [("PostFunc".data, .hooks []), ("Abort".data, .bool false)]⟩
        rw [h3] at hall
        exact hall
      cases ex
      · dsimp only
        rcases h4 : (interp route.handler c1).get "PostFunc".data with _ | v
        · rw [postEvents_append, hevs, postEvents_cons_handler, postEvents_nil]
          rfl
        · rcases v with b | sv | fs
          · rw [postEvents_append, hevs, postEvents_cons_handler, postEvents_nil]
            rfl
          · rw [postEvents_append, hevs, postEvents_cons_handler, postEvents_nil]
            rfl
          · rw [postEvents_append, hevs, postEvents_cons_handler, postEvents_runPosts]
            rfl
      · dsimp only
        rcases h4 : (interp route.handler c1).get "PostFunc".data with _ | v
        · rw [postEvents_append, hevs, postEvents_cons_handler, postEvents_nil]
          rfl
        · rcases v with b | sv | fs
          · rw [postEvents_append, hevs, postEvents_cons_handler, postEvents_nil]
            rfl
          · rw [postEvents_append, hevs, postEvents_cons_handler, postEvents_nil]
            rfl
          · rw [postEvents_append, hevs, postEvents_cons_handler, postEvents_runPosts]
            rfl
      · exact hevs

theorem buildParamsGo_not_mem (subs : List (List Char)) :
    ∀ (names : List (List Char)) (j : Nat) (acc : List (List Char × List Char))
      (key : List Char), key ∉ names →
      assocGet (buildParamsGo subs names j acc) key = assocGet acc key := by
  intro names
  induction names with
  | nil => intro j acc key _; rfl
  | cons nm rest ih =>
    intro j acc key hk
    rw [buildParamsGo]
    rw [ih _ _ _ (fun hm => hk (List.mem_cons_of_mem nm hm))]
    exact assocGet_set_ne _ _ _ _ (fun he => hk (he ▸ List.mem_cons_self nm rest))

theorem buildParamsGo_get (subs : List (List Char)) :
    ∀ (names : List (List Char)), names.Nodup →
      ∀ (j0 : Nat) (acc : List (List Char × List Char)) (j : Nat) (hj : j < names.length),
      assocGet (buildParamsGo subs names j0 acc) names[j] =
        some (subs.getD (j0 + j + 1) []) := by
  intro names
  induction names with
  | nil => intro _ j0 acc j hj; exact absurd hj (by simp)
  | cons nm rest ih =>
    intro hnd j0 acc j hj
    rw [buildParamsGo]
    cases j with
    | zero =>
      have hnm : nm ∉ rest := (List.nodup_cons.1 hnd).1
      simp only [List.getElem_cons_zero]
      rw [buildParamsGo_not_mem subs rest _ _ nm hnm, assocGet_set_self]
    | succ j' =>
      have hj' : j' < rest.length := by
        have h2 := hj
        simp only [List.length_cons] at h2
        omega
      simp only [List.getElem_cons_succ]
      rw [ih (List.nodup_cons.1 hnd).2 (j0 + 1) _ j' hj']
      congr 2
      omega

/-- Parameter binding is the positional zip: with distinct names, name `j`
is bound to submatch `j + 1` (the text of capturing group `j`). -/
theorem buildParams_get (names subs : List (List Char)) (h : names.Nodup)
    (j : Nat) (hj : j < names.length) :
    assocGet (buildParams names subs) names[j] = some (subs.getD (j + 1) []) := by
  unfold buildParams
  rw [buildParamsGo_get subs names h 0 [] j hj]
  rw [Nat.zero_add]

/-! ## Counting capturing groups: the parser's group counter agrees with the
string scanner -/

/-- The parser mode a scanner state corresponds to. -/
def modeMatch : PMode → ScanSt → Prop
  | .norm, .norm => True
  | .esc, .esc => True
  | .clsStart _, .cls => True
  | .clsBody _ _ _ _, .cls => True
  | .clsEsc _ _ _ _, .clsEsc => True
  | _, _ => False

theorem modeMatch_clsAdd (neg : Bool) (items : List (Char × Char))
    (pend : Option Char) (dash : Bool) (c : Char) :
    modeMatch (clsAdd neg items pend dash c) .cls := by
  rcases pend with _ | a
  · trivial
  · rcases dash <;> trivial

theorem pstep_not_ok (st : PSt) (c : Char) (h : st.ok = false) : pstep st c = st := by
  simp [pstep, h]

theorem foldl_pstep_not_ok (cs : List Char) : ∀ st : PSt, st.ok = false →
    List.foldl pstep st cs = st := by
  induction cs with
  | nil => intro st _; rfl
  | cons c cs ih =>
    intro st h
    rw [List.foldl_cons, pstep_not_ok st c h]
    exact ih st h

theorem foldl_pstep_ok (cs : List Char) (st : PSt)
    (h : (List.foldl pstep st cs).ok = true) : st.ok = true := by
  by_contra hm
  have hf : st.ok = false := by
    cases hok : st.ok
    · rfl
    · exact absurd hok hm
  rw [foldl_pstep_not_ok cs st hf] at h
  rw [hf] at h
  cases h

theorem pstep_align (st : PSt) (c : Char) (n : Nat) (m : ScanSt)
    (hok : st.ok = true) (hmm : modeMatch st.mode m)
    (hok' : (pstep st c).ok = true) :
    (pstep st c).g + n = (countStep (n, m) c).1 + st.g ∧
      modeMatch (pstep st c).mode (countStep (n, m) c).2 := by
  obtain ⟨stk, d, p, g, mode, ok⟩ := st
  simp only at hok
  subst hok
  cases mode <;> cases m <;> simp only [modeMatch] at hmm
  · -- norm / norm
    by_cases h1 : c = '\\'
    · subst h1; constructor <;> simp [pstep, countStep, modeMatch] <;> try omega
    by_cases h2 : c = '('
    · subst h2
      constructor
      · simp [pstep, countStep]
        omega
      · simp [pstep, countStep, modeMatch]
    by_cases h3 : c = ')'
    · subst h3
      rcases stk with _ | ⟨⟨d0, gi⟩, stk'⟩
      · simp [pstep, pFail] at hok'
      · constructor <;> simp [pstep, countStep, modeMatch] <;> try omega
    by_cases h4 : c = '['
    · subst h4; constructor <;> simp [pstep, countStep, modeMatch] <;> try omega
    by_cases h5 : c = '+'
    · subst h5
      rcases p with _ | a
      · simp [pstep, pFail] at hok'
      · constructor <;> simp [pstep, countStep, modeMatch] <;> try omega
    by_cases h6 : c = '.'
    · subst h6; constructor <;> simp [pstep, countStep, modeMatch] <;> try omega
    by_cases h7 : c ∈ ['*', '?', '{', '}', '|', '^', '$']
    · exact absurd hok' (by simp [pstep, h1, h2, h3, h4, h5, h6, h7, pFail])
    · constructor <;>
        simp [pstep, countStep, modeMatch, h1, h2, h3, h4, h5, h6, h7] <;> try omega
  · -- esc / esc
    by_cases ha : c.isAlphanum
    · exact absurd hok' (by simp [pstep, ha, pFail])
    · constructor <;> simp [pstep, countStep, modeMatch, ha] <;> try omega
  · -- clsStart / cls
    rename_i neg
    cases neg
    · by_cases h1 : c = '^'
      · subst h1; constructor <;> simp [pstep, countStep, modeMatch] <;> try omega
      by_cases h2 : c = ']'
      · subst h2; exact absurd hok' (by simp [pstep, pFail])
      by_cases h3 : c = '\\'
      · subst h3; constructor <;> simp [pstep, countStep, modeMatch] <;> try omega
      · constructor <;> simp [pstep, countStep, modeMatch, h1, h2, h3] <;> try omega
    · by_cases h2 : c = ']'
      · subst h2; exact absurd hok' (by simp [pstep, pFail])
      by_cases h3 : c = '\\'
      · subst h3; constructor <;> simp [pstep, countStep, modeMatch] <;> try omega
      · constructor <;> simp [pstep, countStep, modeMatch, h2, h3] <;> try omega
  · -- clsBody / cls
    rename_i neg items pend dash
    by_cases h1 : c = ']'
    · subst h1; constructor <;> simp [pstep, countStep, modeMatch] <;> try omega
    by_cases h2 : c = '\\'
    · subst h2; constructor <;> simp [pstep, countStep, modeMatch] <;> try omega
    have hcnt : countStep (n, ScanSt.cls) c = (n, ScanSt.cls) := by
      simp [countStep, h1, h2]
    have hps : pstep ⟨stk, d, p, g, .clsBody neg items pend dash, true⟩ c =
        if c = '-' ∧ pend.isSome ∧ !dash then
          ⟨stk, d, p, g, .clsBody neg items pend true, true⟩
        else ⟨stk, d, p, g, clsAdd neg items pend dash c, true⟩ := by
      simp only [pstep, Bool.not_true, Bool.false_eq_true, if_false, if_neg h1, if_neg h2]
    rw [hps, hcnt]
    constructor
    · split <;> (dsimp only; omega)
    · split
      · simp [modeMatch]
      · simp [modeMatch_clsAdd]
  · -- clsEsc / clsEsc
    rename_i neg items pend dash
    by_cases ha : c.isAlphanum
    · exact absurd hok' (by simp [pstep, ha, pFail])
    · constructor <;> simp [pstep, countStep, ha, modeMatch_clsAdd] <;> try omega

theorem foldl_align (cs : List Char) : ∀ (st : PSt) (n : Nat) (m : ScanSt),
    modeMatch st.mode m → (List.foldl pstep st cs).ok = true →
      (List.foldl pstep st cs).g + n = (List.foldl countStep (n, m) cs).1 + st.g ∧
      modeMatch (List.foldl pstep st cs).mode (List.foldl countStep (n, m) cs).2 := by
  induction cs with
  | nil =>
    intro st n m h1 _
    exact ⟨by simp only [List.foldl_nil]; omega, by simpa using h1⟩
  | cons c cs ih =>
    intro st n m h1 h2
    simp only [List.foldl_cons] at h2 ⊢
    have hok : st.ok = true := foldl_pstep_ok (c :: cs) st (by simp only [List.foldl_cons]; exact h2)
    have hok' : (pstep st c).ok = true := foldl_pstep_ok cs _ h2
    obtain ⟨hg, hm⟩ := pstep_align st c n m hok h1 hok'
    obtain ⟨pa, pb⟩ := ih (pstep st c) (countStep (n, m) c).1 (countStep (n, m) c).2 hm h2
    rw [Prod.mk.eta] at pa pb
    constructor
    · omega
    · exact pb

theorem countStep_shift (c : Char) (n k : Nat) (m : ScanSt) :
    countStep (n + k, m) c = ((countStep (n, m) c).1 + k, (countStep (n, m) c).2) := by
  cases m <;> simp [countStep] <;> split_ifs <;> simp <;> try omega

theorem foldl_countStep_shift (cs : List Char) : ∀ n k m,
    List.foldl countStep (n + k, m) cs =
      ((List.foldl countStep (n, m) cs).1 + k, (List.foldl countStep (n, m) cs).2) := by
  induction cs with
  | nil => intro n k m; rfl
  | cons c cs ih =>
    intro n k m
    simp only [List.foldl_cons]
    rw [countStep_shift, ih, Prod.mk.eta]

theorem countStep_qmChar (c : Char) (n : Nat) :
    List.foldl countStep (n, .norm) (quoteMetaChar c) = (n, .norm) := by
  by_cases hc : c ∈ goSpecialChars
  · rw [quoteMetaChar, if_pos hc]
    rfl
  · rw [quoteMetaChar, if_neg hc]
    simp only [goSpecialChars, List.mem_cons, List.mem_singleton] at hc
    push_neg at hc
    obtain ⟨h1, h2, h3, h4, h5, h6, h7, h8, h9, h10, h11, h12, h13, h14, -⟩ := hc
    simp [countStep, h1, h6, h9]

theorem countStep_quoteMeta (cs : List Char) : ∀ n,
    List.foldl countStep (n, .norm) (quoteMeta cs) = (n, .norm) := by
  induction cs with
  | nil => intro n; rfl
  | cons c cs ih =>
    intro n
    rw [quoteMeta_cons, List.foldl_append, countStep_qmChar, ih]

theorem countStep_dynDefault (n : Nat) :
    List.foldl countStep (n, .norm) "([^/]+)".data = (n + 1, .norm) := by
  rfl

theorem countStep_custom (frag : List Char) (n : Nat)
    (h : List.foldl countStep (0, .norm) frag = (0, .norm)) :
    List.foldl countStep (n, .norm) ('(' :: (frag ++ [')'])) = (n + 1, .norm) := by
  rw [List.foldl_cons]
  rw [show countStep (n, ScanSt.norm) '(' = (n + 1, ScanSt.norm) from rfl]
  rw [List.foldl_append]
  rw [show (n + 1 : Nat) = 0 + (n + 1) from by omega, foldl_countStep_shift, h]
  rfl

theorem compileSegs_nil_frags (segs : List (List Char)) : ∀ ps,
    compileSegs segs = some ([], ps) → ps = [] := by
  induction segs with
  | nil =>
    intro ps h
    rw [compileSegs] at h
    exact ((Prod.mk.inj (Option.some.inj h)).2).symm
  | cons f rest ih =>
    intro ps h
    rw [compileSegs] at h
    by_cases hf : f = []
    · rw [if_pos hf] at h
      exact ih ps h
    · rw [if_neg hf] at h
      cases hc : compileFragment f with
      | dyn rx name =>
        rw [hc] at h
        rcases hr : compileSegs rest with _ | ⟨frs', ps'⟩ <;> rw [hr] at h
        · cases h
        · simp at h
      | static rx =>
        rw [hc] at h
        rcases hr : compileSegs rest with _ | ⟨frs', ps'⟩ <;> rw [hr] at h
        · cases h
        · simp at h
      | broken =>
        rw [hc] at h
        cases h

/-- The condition on a custom regex fragment: it opens no capturing group
and leaves the scanner at top level. -/
def fragScanOk (f : List Char) : Prop :=
  (goSplit '|' f).length = 2 →
    List.foldl countStep (0, .norm) ((goSplit '|' f).getD 1 []) = (0, .norm)

theorem compileSegs_scan (segs : List (List Char)) :
    ∀ frs ps, compileSegs segs = some (frs, ps) →
      (∀ f ∈ segs, fragScanOk f) →
      ∀ n, List.foldl countStep (n, .norm) (goJoin ['/'] frs) = (n + ps.length, .norm) := by
  induction segs with
  | nil =>
    intro frs ps h _ n
    rw [compileSegs] at h
    obtain ⟨h1, h2⟩ := Prod.mk.inj (Option.some.inj h)
    rw [← h1, ← h2]
    simp [goJoin]
  | cons f rest ih =>
    intro frs ps h hok n
    have hokr : ∀ g ∈ rest, fragScanOk g := fun g hg => hok g (List.mem_cons_of_mem f hg)
    rw [compileSegs] at h
    by_cases hf : f = []
    · rw [if_pos hf] at h
      exact ih frs ps h hokr n
    · rw [if_neg hf] at h
      cases hc : compileFragment f with
      | dyn rx name =>
        rw [hc] at h
        rcases hr : compileSegs rest with _ | ⟨frs', ps'⟩ <;> rw [hr] at h
        · cases h
        · simp only [Option.map_some'] at h
          obtain ⟨h1, h2⟩ := Prod.mk.inj (Option.some.inj h)
          subst h1
          subst h2
          have hrx : ∀ k, List.foldl countStep (k, .norm) rx = (k + 1, .norm) := by
            intro k
            unfold compileFragment at hc
            simp only [] at hc
            split_ifs at hc with hd1 hd2 hd3
            · obtain ⟨he, -⟩ := FragResult.dyn.inj hc
              rw [← he]
              exact countStep_dynDefault k
            · obtain ⟨he, -⟩ := FragResult.dyn.inj hc
              rw [← he]
              exact countStep_custom _ k (hok f (List.mem_cons_self f rest) hd2)
          cases frs' with
          | nil =>
            have hps := compileSegs_nil_frags rest ps' hr
            subst hps
            rw [show goJoin ['/'] [rx] = rx from rfl, hrx n]
            rfl
          | cons fr2 frs'' =>
            rw [show goJoin ['/'] (rx :: fr2 :: frs'') =
              rx ++ ['/'] ++ goJoin ['/'] (fr2 :: frs'') from rfl]
            rw [List.foldl_append, List.foldl_append, hrx n]
            rw [show List.foldl countStep (n + 1, ScanSt.norm) ['/'] =
              (n + 1, ScanSt.norm) from rfl]
            rw [ih (fr2 :: frs'') ps' hr hokr (n + 1)]
            simp only [List.length_cons]
            congr 1
            omega
      | static rx =>
        rw [hc] at h
        rcases hr : compileSegs rest with _ | ⟨frs', ps'⟩ <;> rw [hr] at h
        · cases h
        · simp only [Option.map_some'] at h
          obtain ⟨h1, h2⟩ := Prod.mk.inj (Option.some.inj h)
          subst h1
          subst h2
          have hrx : ∀ k, List.foldl countStep (k, .norm) rx = (k, .norm) := by
            intro k
            unfold compileFragment at hc
            simp only [] at hc
            split_ifs at hc
            rw [← FragResult.static.inj hc]
            exact countStep_quoteMeta f k
          cases frs' with
          | nil =>
            have hps := compileSegs_nil_frags rest ps' hr
            subst hps
            rw [show goJoin ['/'] [rx] = rx from rfl, hrx n]
            rfl
          | cons fr2 frs'' =>
            rw [show goJoin ['/'] (rx :: fr2 :: frs'') =
              rx ++ ['/'] ++ goJoin ['/'] (fr2 :: frs'') from rfl]
            rw [List.foldl_append, List.foldl_append, hrx n]
            rw [show List.foldl countStep (n, ScanSt.norm) ['/'] =
              (n, ScanSt.norm) from rfl]
            exact ih (fr2 :: frs'') ps' hr hokr n
      | broken =>
        rw [hc] at h
        cases h

/-- When every custom regex fragment of a pattern opens no capturing group,
the compiled matcher has exactly one capturing group per parameter name. -/
theorem groups_eq_params (pattern rxStr : List Char) (ps : List (List Char))
    (rx : Rx) (ng : Nat)
    (h1 : mkRegexPattern pattern = some (rxStr, ps))
    (h2 : goRegexCompile rxStr = some (rx, ng))
    (h3 : ∀ f ∈ goSplit '/' pattern, fragScanOk f) :
    ng = ps.length := by
  unfold mkRegexPattern at h1
  rcases hcs : compileSegs (goSplit '/' pattern) with _ | ⟨frs, ps0⟩
  · rw [hcs] at h1; cases h1
  · rw [hcs] at h1
    simp only [Option.map_some'] at h1
    obtain ⟨he1, he2⟩ := Prod.mk.inj (Option.some.inj h1)
    subst he2
    rw [← he1] at h2
    rw [show (('^' :: '/' :: goJoin ['/'] frs) ++ ['$'] : List Char) =
      '^' :: (('/' :: goJoin ['/'] frs) ++ ['$']) from rfl] at h2
    rw [show goRegexCompile ('^' :: (('/' :: goJoin ['/'] frs) ++ ['$'])) =
      (if (('/' :: goJoin ['/'] frs) ++ ['$']).getLast? = some '$' then
        pFinal (List.foldl pstep pInit (('/' :: goJoin ['/'] frs) ++ ['$']).dropLast)
      else none) from rfl] at h2
    rw [List.getLast?_concat, List.dropLast_concat, if_pos rfl] at h2
    unfold pFinal at h2
    split_ifs at h2 with hcond
    · obtain ⟨hok, hstk, hmode⟩ := hcond
      obtain ⟨-, hgeq⟩ :=
        Prod.mk.inj (Option.some.inj h2)
      have halign := foldl_align ('/' :: goJoin ['/'] frs) pInit 0 .norm (by trivial) hok
      have hscan := compileSegs_scan (goSplit '/' pattern) frs ps0 hcs h3 0
      have hbody : List.foldl countStep (0, ScanSt.norm) ('/' :: goJoin ['/'] frs) =
          (ps0.length, ScanSt.norm) := by
        rw [List.foldl_cons]
        rw [show countStep (0, ScanSt.norm) '/' = (0, ScanSt.norm) from rfl]
        rw [hscan, Nat.zero_add]
      obtain ⟨hg, -⟩ := halign
      rw [hbody] at hg
      rw [show pInit.g = 0 from rfl] at hg
      omega

/-! ## Remaining helpers and concrete scenarios -/

theorem goSplit_headD_nil (sep : Char) (frag : List Char) (h : frag ≠ []) :
    ((goSplit sep frag).headD [] = []) ↔ frag.head? = some sep := by
  cases frag with
  | nil => exact absurd rfl h
  | cons c rest =>
    by_cases hc : c = sep
    · subst hc
      simp [goSplit]
    · simp only [goSplit, if_neg hc]
      rcases hg : goSplit sep rest with _ | ⟨g, gs⟩
      · exact absurd hg (goSplit_ne_nil sep rest)
      · simp [hc]

/-- The identity interpretation: a handler that does nothing. -/
def unitInterp : Unit → Ctx Unit → Ctx Unit := fun _ c => c

/-- A dispatch through a one-route table whose matcher hits, with identity
handlers: the route handler runs once on the freshly initialised context. -/
theorem serve_unit_single (rt : Route Unit) (method path : List Char)
    (m : List (List Char)) (hm : findStringSubmatch rt.regex path = some m) :
    (Server.mk [(method, [rt])] []).serve unitInterp method path =
      ⟨.dispatched, [.handler 0],
       some ⟨buildParams rt.params m,
             [("PostFunc".data, .hooks []), ("Abort".data, .bool false)]⟩⟩ := by
  unfold Server.serve
  rw [show assocGet [(method, [rt])] method = some [rt] from by simp [assocGet]]
  dsimp only
  rw [show findRoute [rt] path = some (0, rt, m) from by rw [findRoute, hm]]
  rfl

theorem serve_unit_single_miss (rt : Route Unit) (method path : List Char)
    (hm : findStringSubmatch rt.regex path = none) :
    (Server.mk [(method, [rt])] []).serve unitInterp method path =
      ⟨.notFound, [], none⟩ := by
  apply serve_notFound _ _ _ _ [rt]
  · simp [assocGet]
  · rw [findRoute, hm]
    rfl

/-- The `/:name` server: what registration produces for that pattern. -/
def dynServer (name : List Char) : Server Unit :=
  ⟨[("GET".data, [⟨"^/([^/]+)$".data, [name], ()⟩])], []⟩

theorem handle_dynName (name : List Char) (hbar : '|' ∉ name) (hsl : '/' ∉ name) :
    Server.empty.handle ('/' :: ':' :: name) () ["GET".data] = some (dynServer name) := by
  unfold Server.handle
  rw [if_neg (by simp)]
  rw [mkRegexPattern_dynName name hbar hsl]
  dsimp only
  rw [goRegexCompile_rxDyn]
  rfl

/-- The C1 scenario: middleware 0 registers post-hook 100, middleware 1
aborts, middleware 2 would mark the context, the route handler is 5. -/
def interpC1 : Nat → Ctx Nat → Ctx Nat := fun h c =>
  match h with
  | 0 => (c.post 100).getD c
  | 1 => c.abort
  | 2 => c.set "mw2ran".data (.bool true)
  | 100 => c.set "postran".data (.bool true)
  | _ => c

def serverC1 : Server Nat :=
  (((Server.empty).handle "/x".data 5 ["GET".data]).getD Server.empty).addMiddleware [0, 1, 2]

/-- The C10 scenario: the route handler 5 registers post-hook 7; hook 7
registers hook 8 while the post phase is running; hook 8 marks the context. -/
def interpC10 : Nat → Ctx Nat → Ctx Nat := fun h c =>
  match h with
  | 5 => (c.post 7).getD c
  | 7 => (c.post 8).getD c
  | 8 => c.set "ran8".data (.bool true)
  | _ => c

def serverC10 : Server Nat :=
  ((Server.empty).handle "/x".data 5 ["GET".data]).getD Server.empty

/-- The identity interpretation on numbered handlers. -/
def natInterp : Nat → Ctx Nat → Ctx Nat := fun _ c => c

/-- The C7 scenario: `/:id` registered before `/static`, both under GET. -/
def serverC7 : Server Nat :=
  ((((Server.empty).handle "/:id".data 1 ["GET".data]).getD Server.empty).handle
    "/static".data 2 ["GET".data]).getD Server.empty

/-- The C7 duplicate scenario: the identical route registered twice. -/
def serverC7dup : Server Nat :=
  ((((Server.empty).handle "/a".data 3 ["GET".data]).getD Server.empty).handle
    "/a".data 3 ["GET".data]).getD Server.empty

/-- The context exactly as `ServeHTTP` initialises it. -/
def initCtx : Ctx Nat :=
  ⟨[], [("PostFunc".data, .hooks []), ("Abort".data, .bool false)]⟩

theorem compileFragment_eq (frag : List Char) :
    compileFragment frag =
      if (goSplit '|' frag).length = 1 ∧ frag.head? = some ':' then
        FragResult.dyn "([^/]+)".data (((goSplit '|' frag).headD []).drop 1)
      else if (goSplit '|' frag).length = 2 then
        if (goSplit '|' frag).headD [] = [] then .broken
        else FragResult.dyn ('(' :: ((goSplit '|' frag).getD 1 [] ++ [')']))
          (((goSplit '|' frag).headD []).drop 1)
      else FragResult.static (quoteMeta frag) := rfl

instance (f : List Char) : Decidable (fragScanOk f) := by
  unfold fragScanOk
  exact inferInstance

theorem isAborted_eq (c : Ctx H) :
    c.isAborted = match c.get "Abort".data with
      | some (.bool true) => true
      | _ => false := rfl

/-- A dispatch with the scan result given: the rest of the pipeline. -/
theorem serve_of_findRoute {H : Type} (server : Server H) (interp : H → Ctx H → Ctx H)
    (method path : List Char) (rts : List (Route H)) (i : Nat) (rt : Route H)
    (m : List (List Char))
    (h1 : assocGet server.routes method = some rts)
    (h2 : findRoute rts path = some (i, rt, m)) :
    server.serve interp method path =
      (let ctx0 : Ctx H := ⟨buildParams rt.params m,
         [("PostFunc".data, .hooks []), ("Abort".data, .bool false)]⟩
       match mwLoop interp server.middlewares ctx0 with
       | (c1, evs, .panicked) => ⟨.panicked, evs, some c1⟩
       | (c1, evs, _) =>
         let c2 := interp rt.handler c1
         match c2.get "PostFunc".data with
         | some (.hooks fs) =>
           let out := runPosts interp fs c2
           ⟨.dispatched, evs ++ .handler i :: out.2, some out.1⟩
         | _ => ⟨.dispatched, evs ++ [.handler i], some c2⟩) := by
  unfold Server.serve
  rw [h1]
  dsimp only
  rw [h2]

theorem findSub_x : findStringSubmatch "^/x$".data "/x".data = some ["/x".data] := by
  have hl := findSub_lit "/x".data "/x".data
  rw [if_pos rfl] at hl
  exact hl

theorem findSub_static :
    findStringSubmatch "^/static$".data "/static".data = some ["/static".data] := by
  have hl := findSub_lit "/static".data "/static".data
  rw [if_pos rfl] at hl
  exact hl

theorem findSub_a : findStringSubmatch "^/a$".data "/a".data = some ["/a".data] := by
  have hl := findSub_lit "/a".data "/a".data
  rw [if_pos rfl] at hl
  exact hl

theorem findSub_q_nope : findStringSubmatch "^/q$".data "/nope".data = none := by
  have hl := findSub_lit "/q".data "/nope".data
  rw [if_neg (by decide)] at hl
  exact hl

/-! ## Claim theorems -/

/-- C1: the claim says that once a middleware sets the abort flag the
dispatcher stops the remaining middleware, does not invoke the matched
route's handler, and still runs every registered post-hook.  The code stops
the middleware loop and runs the post-hooks, but `ServeHTTP` (feather.go
line 296) invokes the matched handler unconditionally: in this run
middleware 1 aborts, middleware 2 is skipped, the post-hook runs — and the
handler invocation `.handler 0` is still present in the trace, contradicting
the claim. -/
theorem featherC1_bug :
    (serverC1.serve interpC1 "GET".data "/x".data).events =
      [.mid 0, .mid 1, .handler 0, .post 100] ∧
    (serverC1.serve interpC1 "GET".data "/x".data).response = .dispatched ∧
    Event.handler 0 ∈ (serverC1.serve interpC1 "GET".data "/x".data).events ∧
    Event.mid 2 ∉ (serverC1.serve interpC1 "GET".data "/x".data).events := by
  rw [serve_of_findRoute serverC1 interpC1 "GET".data "/x".data
    [⟨"^/x$".data, [], 5⟩] 0 ⟨"^/x$".data, [], 5⟩ ["/x".data] (by decide)
    (by rw [findRoute]; dsimp only; rw [findSub_x])]
  decide

/-- C2 counterexample: the claim says a segment is compiled as a dynamic
segment exactly when splitting on the FIRST `|` yields two parts whose name
part starts with `:`, and that every other segment is a quoted static
literal.  The code splits on every `|` and never checks the leading `:` in
the two-part branch: `a|b` (no colon) compiles to the dynamic matcher
`(b)`, not to the quoted literal, and `:x|a|b` (dynamic under a
first-`|`-only split) compiles to a quoted static literal. -/
theorem featherC2_counterexample :
    compileFragment "a|b".data ≠ .static (quoteMeta "a|b".data) ∧
    compileFragment "a|b".data = .dyn "(b)".data [] ∧
    compileFragment ":x|a|b".data = .static (quoteMeta ":x|a|b".data) := by
  decide

/-- C2 amended: route compilation splits each segment on every `|`.  A
segment with no `|` is a default dynamic segment when it starts with `:` and
a quoted static literal otherwise; a segment with exactly one `|` is a named
dynamic segment with a custom matcher regardless of whether it starts with
`:` (except that a leading `|` panics at registration); a segment with two
or more `|` is a quoted static literal. -/
theorem featherC2_amended (frag : List Char) (h : frag ≠ []) :
    (frag.count '|' = 0 → frag.head? = some ':' →
      compileFragment frag = .dyn "([^/]+)".data (frag.drop 1)) ∧
    (frag.count '|' = 0 → frag.head? ≠ some ':' →
      compileFragment frag = .static (quoteMeta frag)) ∧
    (frag.count '|' = 1 → frag.head? = some '|' → compileFragment frag = .broken) ∧
    (frag.count '|' = 1 → frag.head? ≠ some '|' →
      ∃ rx name, compileFragment frag = .dyn rx name) ∧
    (2 ≤ frag.count '|' → compileFragment frag = .static (quoteMeta frag)) := by
  have hlen := goSplit_length '|' frag
  refine ⟨?_, ?_, ?_, ?_, ?_⟩
  · intro hc0 hhead
    have hnm : '|' ∉ frag := List.count_eq_zero.1 hc0
    rw [compileFragment_eq, goSplit_of_not_mem _ _ hnm]
    simp [hhead]
  · intro hc0 hhead
    have hnm : '|' ∉ frag := List.count_eq_zero.1 hc0
    rw [compileFragment_eq, goSplit_of_not_mem _ _ hnm]
    simp [hhead]
  · intro hc1 hhead
    have h2 : (goSplit '|' frag).length = 2 := by rw [hlen, hc1]
    have hhd : (goSplit '|' frag).headD [] = [] := (goSplit_headD_nil '|' frag h).2 hhead
    rw [compileFragment_eq,
      if_neg (fun hcond => by rw [h2] at hcond; exact absurd hcond.1 (by decide)),
      if_pos h2, if_pos hhd]
  · intro hc1 hhead
    have h2 : (goSplit '|' frag).length = 2 := by rw [hlen, hc1]
    have hhd : (goSplit '|' frag).headD [] ≠ [] :=
      fun he => hhead ((goSplit_headD_nil '|' frag h).1 he)
    exact ⟨'(' :: ((goSplit '|' frag).getD 1 [] ++ [')']),
      ((goSplit '|' frag).headD []).drop 1, by
        rw [compileFragment_eq,
          if_neg (fun hcond => by rw [h2] at hcond; exact absurd hcond.1 (by decide)),
          if_pos h2, if_neg hhd]⟩
  · intro hc2
    rw [compileFragment_eq,
      if_neg (fun hcond => by rw [hlen] at hcond; omega),
      if_neg (fun hcond => by rw [hlen] at hcond; omega)]

theorem featherC2_witness :
    ":x".data ≠ [] ∧
    compileFragment ":x".data = .dyn "([^/]+)".data (":x".data.drop 1) :=
  ⟨by decide, (featherC2_amended ":x".data (by decide)).1 (by decide) (by decide)⟩

/-- C3 counterexample: the claim says that once the abort flag is set, no
operation available on the context — including `Set` on the scratch store —
can make the dispatcher observe it as cleared.  But the flag lives in the
shared `Data` map, so `Set("Abort", false)` clears it. -/
theorem featherC3_counterexample :
    (initCtx.abort).isAborted = true ∧
    ((initCtx.abort).set "Abort".data (.bool false)).isAborted = false := by
  decide

/-- C3 amended: once the abort flag is set, `Abort`, `Post` and `Set` on
any key other than `"Abort"` keep it set; only writing the `"Abort"` key of
the scratch store itself can clear it. -/
theorem featherC3_amended (H : Type) (c : Ctx H) (k : List Char) (v : Val H) (f : H)
    (h : c.isAborted = true) :
    c.abort.isAborted = true ∧
    (∀ c', c.post f = some c' → c'.isAborted = true) ∧
    (k ≠ "Abort".data → (c.set k v).isAborted = true) := by
  rw [isAborted_eq] at h
  refine ⟨?_, ?_, ?_⟩
  · rw [isAborted_eq,
      show (c.abort).get "Abort".data = some (.bool true) from assocGet_set_self c.data _ _]
  · intro c' hc'
    unfold Ctx.post at hc'
    rcases hg : c.get "PostFunc".data with _ | v0 <;> rw [hg] at hc'
    · cases hc'
    · rcases v0 with b | sv | fs
      · cases hc'
      · cases hc'
      · dsimp only at hc'
        obtain rfl := Option.some.inj hc'
        rw [isAborted_eq,
          show (c.set "PostFunc".data (.hooks (fs ++ [f]))).get "Abort".data =
            c.get "Abort".data from assocGet_set_ne c.data _ _ _ (by decide)]
        exact h
  · intro hk
    rw [isAborted_eq,
      show (c.set k v).get "Abort".data = c.get "Abort".data from
        assocGet_set_ne c.data _ _ _ hk]
    exact h

theorem featherC3_witness :
    (initCtx.abort).isAborted = true ∧
    (initCtx.abort).abort.isAborted = true ∧
    ((initCtx.abort).set "other".data (.bool false)).isAborted = true := by
  have hmain := featherC3_amended Nat initCtx.abort "other".data (.bool false) 0 (by decide)
  exact ⟨by decide, hmain.1, hmain.2.2 (by decide)⟩

/-- C4 counterexample: the claim says the number of capturing groups of the
compiled matcher always equals the number of parameter names.  A custom
regex fragment may itself contain capturing groups: `/:id|(a)b` compiles to
`^/((a)b)$`, which has two capturing groups but one parameter name. -/
theorem featherC4_counterexample :
    (mkRegexPattern "/:id|(a)b".data).map (fun p => p.2.length) = some 1 ∧
    ((mkRegexPattern "/:id|(a)b".data).bind (fun p => goRegexCompile p.1)).map
      (fun q => q.2) = some 2 := by
  decide

/-- C4 amended: provided no custom regex fragment opens a capturing group
of its own, the compiled matcher has exactly one capturing group per
parameter name; and parameter binding is always the positional zip — for
distinct names, name `j` is bound to submatch `j+1`, the text of capturing
group `j`. -/
theorem featherC4_amended :
    (∀ (pattern rxStr : List Char) (ps : List (List Char)) (rx : Rx) (ng : Nat),
      mkRegexPattern pattern = some (rxStr, ps) →
      goRegexCompile rxStr = some (rx, ng) →
      (∀ f ∈ goSplit '/' pattern, fragScanOk f) →
      ng = ps.length) ∧
    (∀ (names subs : List (List Char)), names.Nodup →
      ∀ (j : Nat) (hj : j < names.length),
        assocGet (buildParams names subs) names[j] = some (subs.getD (j + 1) [])) :=
  ⟨groups_eq_params, buildParams_get⟩

/-- The parse of `^/([0-9]+)$`. -/
def rx09 : Rx :=
  .seq (.ch '/') (.seq (.group 0 (.seq (.plus (.cls false [('0', '9')])) .eps)) .eps)

theorem featherC4_witness :
    (1 : Nat) = (["id".data] : List (List Char)).length ∧
    assocGet (buildParams ["id".data] ["/7".data, "7".data]) "id".data =
      some "7".data := by
  constructor
  · exact featherC4_amended.1 "/:id|[0-9]+".data "^/([0-9]+)$".data ["id".data] rx09 1
      (by decide) (by decide) (by decide)
  · have hb := featherC4_amended.2 ["id".data] ["/7".data, "7".data] (by decide) 0 (by decide)
    simpa using hb

/-- C5 counterexample: the claim says a pattern with no dynamic segments
matches exactly the identical literal path string.  `/about/` compiles to
`^/about$` (empty segments are dropped), which does not match the pattern's
own text `/about/`. -/
theorem featherC5_counterexample :
    (mkRegexPattern "/about/".data).map (fun p => p.1) = some "^/about$".data ∧
    findStringSubmatch "^/about$".data "/about/".data = none ∧
    findStringSubmatch "^/about$".data "/about".data = some ["/about".data] := by
  refine ⟨by decide, ?_, ?_⟩
  · have hl := findSub_lit "/about".data "/about/".data
    rw [if_neg (by decide)] at hl
    exact hl
  · have hl := findSub_lit "/about".data "/about".data
    rw [if_pos rfl] at hl
    exact hl

/-- C5 amended: for every pattern whose non-empty segments all compile as
static literals, compilation succeeds with no parameters, and the compiled
matcher accepts exactly the canonical path: a leading slash followed by the
non-empty segments joined by `/` (so leading, trailing and doubled slashes
in the pattern are collapsed); every other path is rejected. -/
theorem featherC5_amended (pattern : List Char)
    (h : ∀ f ∈ goSplit '/' pattern, f = [] ∨ compileFragment f = .static (quoteMeta f)) :
    mkRegexPattern pattern =
      some ('^' :: (quoteMeta (canonicalPath pattern) ++ ['$']), []) ∧
    ∀ s, (findStringSubmatch ('^' :: (quoteMeta (canonicalPath pattern) ++ ['$'])) s).isSome ↔
      s = canonicalPath pattern := by
  refine ⟨mkRegexPattern_static pattern h, fun s => ?_⟩
  rw [findSub_lit]
  by_cases he : s = canonicalPath pattern <;> simp [he]

theorem featherC5_witness :
    mkRegexPattern "/about".data =
      some ('^' :: (quoteMeta (canonicalPath "/about".data) ++ ['$']), []) ∧
    ((findStringSubmatch ('^' :: (quoteMeta (canonicalPath "/about".data) ++ ['$']))
        "/about".data).isSome ↔ "/about".data = canonicalPath "/about".data) :=
  ⟨(featherC5_amended "/about".data (by decide)).1,
   (featherC5_amended "/about".data (by decide)).2 "/about".data⟩

/-- C6: registering `/:name` succeeds, and dispatching `/x` for any
non-empty slash-free `x` selects that route and binds `name` to `x` in the
context's parameter map, while any two-segment path `/a/b` is a 404 for
that route table. -/
theorem featherC6 (name : List Char) (hbar : '|' ∉ name) (hsl : '/' ∉ name) :
    Server.empty.handle ('/' :: ':' :: name) () ["GET".data] = some (dynServer name) ∧
    (∀ x, x ≠ [] → x.all (· ≠ '/') = true →
      ((dynServer name).serve unitInterp "GET".data ('/' :: x)).response = .dispatched ∧
      ((dynServer name).serve unitInterp "GET".data ('/' :: x)).ctx =
        some ⟨[(name, x)], [("PostFunc".data, .hooks []), ("Abort".data, .bool false)]⟩) ∧
    (∀ a b : List Char,
      ((dynServer name).serve unitInterp "GET".data ('/' :: (a ++ '/' :: b))).response =
        .notFound) := by
  refine ⟨handle_dynName name hbar hsl, ?_, ?_⟩
  · intro x hx1 hx2
    have hs := serve_unit_single ⟨"^/([^/]+)$".data, [name], ()⟩ "GET".data ('/' :: x)
      ['/' :: x, x] (findSub_dyn_hit x hx1 hx2)
    rw [show dynServer name =
      Server.mk [("GET".data, [⟨"^/([^/]+)$".data, [name], ()⟩])] [] from rfl]
    rw [hs]
    exact ⟨rfl, rfl⟩
  · intro a b
    have hmiss : findStringSubmatch "^/([^/]+)$".data ('/' :: (a ++ '/' :: b)) = none := by
      apply findSub_dyn_miss
      rintro ⟨-, hall⟩
      rw [List.all_eq_true] at hall
      have hmem := hall '/' (by simp)
      simp at hmem
    have hs := serve_unit_single_miss ⟨"^/([^/]+)$".data, [name], ()⟩ "GET".data _ hmiss
    rw [show dynServer name =
      Server.mk [("GET".data, [⟨"^/([^/]+)$".data, [name], ()⟩])] [] from rfl]
    rw [hs]

theorem featherC6_witness :
    Server.empty.handle "/:id".data () ["GET".data] = some (dynServer "id".data) ∧
    ((dynServer "id".data).serve unitInterp "GET".data "/42".data).response = .dispatched ∧
    ((dynServer "id".data).serve unitInterp "GET".data "/a/b".data).response = .notFound := by
  have hmain := featherC6 "id".data (by decide) (by decide)
  refine ⟨hmain.1, ?_, ?_⟩
  · exact (hmain.2.1 "42".data (by decide) (by decide)).1
  · have hb := hmain.2.2 "a".data "b".data
    simpa using hb

/-- C7: precedence is registration order.  Concretely, with `/:id`
registered before `/static` under GET, dispatching GET `/static` selects the
first-registered route (index 0) and binds `id = "static"`.  In general the
matching scan returns the least index whose matcher accepts the path.  And
registering the identical route twice keeps both entries, with only the
first ever dispatched to. -/
theorem featherC7 :
    (((Server.empty.handle "/:id".data 1 ["GET".data]).bind
        (fun s => s.handle "/static".data 2 ["GET".data])) = some serverC7 ∧
      (serverC7.serve natInterp "GET".data "/static".data).events = [.handler 0] ∧
      (serverC7.serve natInterp "GET".data "/static".data).ctx.map
        (fun c => assocGet c.params "id".data) = some (some "static".data)) ∧
    (∀ (H : Type) (rts : List (Route H)) (path : List Char) (i : Nat) (r : Route H)
        (m : List (List Char)),
      findRoute rts path = some (i, r, m) →
        rts[i]? = some r ∧ findStringSubmatch r.regex path = some m ∧
        ∀ j, j < i → ∀ rj, rts[j]? = some rj →
          findStringSubmatch rj.regex path = none) ∧
    ((assocGet serverC7dup.routes "GET".data).map List.length = some 2 ∧
      (serverC7dup.serve natInterp "GET".data "/a".data).events = [.handler 0]) := by
  have hserve7 := serve_of_findRoute serverC7 natInterp "GET".data "/static".data
    [⟨"^/([^/]+)$".data, ["id".data], 1⟩, ⟨"^/static$".data, [], 2⟩] 0
    ⟨"^/([^/]+)$".data, ["id".data], 1⟩ ["/static".data, "static".data] (by decide)
    (by rw [findRoute]
        dsimp only
        rw [show findStringSubmatch "^/([^/]+)$".data "/static".data =
          some ["/static".data, "static".data] from
          findSub_dyn_hit "static".data (by decide) (by decide)])
  have hserve7d := serve_of_findRoute serverC7dup natInterp "GET".data "/a".data
    [⟨"^/a$".data, [], 3⟩, ⟨"^/a$".data, [], 3⟩] 0 ⟨"^/a$".data, [], 3⟩ ["/a".data]
    (by decide)
    (by rw [findRoute]; dsimp only; rw [findSub_a])
  refine ⟨?_, ?_, ?_⟩
  · rw [hserve7]
    refine ⟨by decide, by decide, by decide⟩
  · intro H rts path i r m hfr
    exact findRoute_spec path rts i r m hfr
  · rw [hserve7d]
    exact ⟨by decide, by decide⟩

theorem featherC7_witness :
    ([(⟨"^/a$".data, [], (3 : Nat)⟩ : Route Nat)])[0]? = some ⟨"^/a$".data, [], 3⟩ ∧
    findStringSubmatch "^/a$".data "/a".data = some ["/a".data] := by
  have hg := featherC7.2.1 Nat [⟨"^/a$".data, [], 3⟩] "/a".data 0 ⟨"^/a$".data, [], 3⟩
    ["/a".data] (by rw [findRoute]; dsimp only; rw [findSub_a])
  exact ⟨hg.1, hg.2.1⟩

/-- C8: a method with no routes is answered with exactly a 405 and a known
method with no matching route with exactly a 404; in both cases the trace is
empty — no middleware and no handler ran — and no context was built. -/
theorem featherC8 :
    (∀ (H : Type) (server : Server H) (interp : H → Ctx H → Ctx H)
        (method path : List Char),
      assocGet server.routes method = none →
        server.serve interp method path = ⟨.methodNotAllowed, [], none⟩) ∧
    (∀ (H : Type) (server : Server H) (interp : H → Ctx H → Ctx H)
        (method path : List Char) (rts : List (Route H)),
      assocGet server.routes method = some rts →
      (∀ r ∈ rts, findStringSubmatch r.regex path = none) →
        server.serve interp method path = ⟨.notFound, [], none⟩) := by
  constructor
  · intro H server interp method path hms
    exact serve_methodNotAllowed server interp method path hms
  · intro H server interp method path rts h1 h2
    exact serve_notFound server interp method path rts h1 (findRoute_none_of_all path rts h2)

/-- A POST-only and a GET-only server for the C8 witness. -/
def serverC8post : Server Nat :=
  ((Server.empty).handle "/p".data 4 ["POST".data]).getD Server.empty

def serverC8get : Server Nat :=
  ((Server.empty).handle "/q".data 4 ["GET".data]).getD Server.empty

theorem featherC8_witness :
    serverC8post.serve natInterp "GET".data "/p".data = ⟨.methodNotAllowed, [], none⟩ ∧
    serverC8get.serve natInterp "GET".data "/nope".data = ⟨.notFound, [], none⟩ := by
  refine ⟨featherC8.1 Nat serverC8post natInterp "GET".data "/p".data (by decide),
    featherC8.2 Nat serverC8get natInterp "GET".data "/nope".data
      [⟨"^/q$".data, [], 4⟩] (by decide) ?_⟩
  intro r hr
  rw [show r = (⟨"^/q$".data, [], 4⟩ : Route Nat) from by simpa using hr]
  exact findSub_q_nope

/-- C9: registering with an empty method list registers the route under GET
and under no other method; dispatching POST against such a server is
answered with exactly a 405, with no middleware or handler run. -/
theorem featherC9 (H : Type) (hd : H) (pattern : List Char) (S' : Server H)
    (hreg : Server.empty.handle pattern hd [] = some S') :
    (∃ rts, assocGet S'.routes "GET".data = some rts) ∧
    (∀ m, m ≠ "GET".data → assocGet S'.routes m = none) ∧
    (∀ (interp : H → Ctx H → Ctx H) (path : List Char),
      S'.serve interp "POST".data path = ⟨.methodNotAllowed, [], none⟩) := by
  unfold Server.handle at hreg
  rw [if_pos rfl] at hreg
  rcases hmk : mkRegexPattern pattern with _ | ⟨rxStr, ps⟩ <;> rw [hmk] at hreg
  · cases hreg
  · dsimp only at hreg
    rcases hgc : goRegexCompile rxStr with _ | ⟨rx, ng⟩ <;> rw [hgc] at hreg
    · cases hreg
    · dsimp only at hreg
      obtain rfl := Option.some.inj hreg
      refine ⟨⟨[⟨rxStr, ps, hd⟩], ?_⟩, ?_, ?_⟩
      · simp [Server.empty, addRoute, assocGet]
      · intro m hm
        simp [Server.empty, addRoute, assocGet, Ne.symm hm]
      · intro interp path
        apply serve_methodNotAllowed
        simp [Server.empty, addRoute, assocGet]

/-- The server of the C9 witness, registered with an empty method list. -/
def serverC9 : Server Nat :=
  ((Server.empty).handle "/p".data 9 []).getD Server.empty

theorem featherC9_witness :
    assocGet serverC9.routes "POST".data = none ∧
    serverC9.serve natInterp "POST".data "/p".data = ⟨.methodNotAllowed, [], none⟩ := by
  have hmain := featherC9 Nat 9 "/p".data serverC9 (by decide)
  exact ⟨hmain.2.1 "POST".data (by decide), hmain.2.2 natInterp "/p".data⟩

/-- C10: the dispatcher reads the `PostFunc` list exactly once, right after
the handler returns, and the post-hooks it runs are exactly that snapshot in
order — so a hook registered by a running post-hook is silently dropped.
Concretely, handler 5 registers hook 7 and hook 7 registers hook 8: the
trace runs only hook 7, even though hook 8 is present in the final
`PostFunc` list. -/
theorem featherC10 :
    (∀ (H : Type) (server : Server H) (interp : H → Ctx H → Ctx H)
        (method path : List Char),
      postEvents (server.serve interp method path).events =
        postSnapshot server interp method path) ∧
    ((serverC10.serve interpC10 "GET".data "/x".data).events = [.handler 0, .post 7] ∧
     (serverC10.serve interpC10 "GET".data "/x".data).ctx.map
       (fun c => c.get "PostFunc".data) = some (some (.hooks [7, 8])) ∧
     postEvents (serverC10.serve interpC10 "GET".data "/x".data).events = [7]) :=
  ⟨fun H server interp method path => serve_posts_eq_snapshot server interp method path,
   by
    rw [serve_of_findRoute serverC10 interpC10 "GET".data "/x".data
      [⟨"^/x$".data, [], 5⟩] 0 ⟨"^/x$".data, [], 5⟩ ["/x".data] (by decide)
      (by rw [findRoute]; dsimp only; rw [findSub_x])]
    refine ⟨by decide, by decide, by decide⟩⟩

end Feather
